import Mathlib

/-!
Verification of the pocket repository against its specification.

The development shallowly embeds the parts of the code that the claims
are about:

* the pronounceable password generator (the `PasswordGenerator` class of
  `password_generator.py` is not present in the sources; only its verifier
  `Clinkey/verification_patterns.py` and its demo test are, so the
  generator itself is modelled from the specification);
* the pattern verifier `Clinkey/verification_patterns.py`;
* the PDF converter `fancy_tools/pdf/converter.py`;
* the favicon converter and its CLI wrapper `fancy_tools/web/favicon.py`;
* the two copies of `get_language_identifier`
  (`proj-to-file.py` and `super_pocket/project/to_file.py`).

Strings are modelled as Lean `String`/`List Char`; file systems are
modelled by explicit booleans for existence; randomness is modelled by an
infinite stream of natural numbers, one entry per random draw.
-/

namespace Pocket

/-! ## The separator character class `[-_.|]` and splitting on it -/

/-- The separator character class of the regex `[-_.|]` used by
`verification_patterns.py` and fixed by the specification. -/
def isSep (ch : Char) : Bool :=
  ch = '-' || ch = '_' || ch = '.' || ch = '|'

/-- Model of `re.split(r"[-_.|]", s)` on the character list of `s`:
splits at every separator character, keeping empty pieces, and returns
`[[]]` on the empty list, exactly as `re.split` returns `[""]`. -/
def splitSeps : List Char → List (List Char)
  | [] => [[]]
  | ch :: cs =>
    if isSep ch then [] :: splitSeps cs
    else
      match splitSeps cs with
      | [] => [[ch]]
      | p :: ps => (ch :: p) :: ps

theorem splitSeps_ne_nil (l : List Char) : splitSeps l ≠ [] := by
  induction l with
  | nil => simp [splitSeps]
  | cons ch cs ih =>
    simp only [splitSeps]
    split
    · simp
    · cases h : splitSeps cs <;> simp

theorem splitSeps_sep_cons (ch : Char) (cs : List Char) (h : isSep ch = true) :
    splitSeps (ch :: cs) = [] :: splitSeps cs := by
  simp [splitSeps, h]

theorem splitSeps_nonsep_cons (ch : Char) (cs : List Char) (h : isSep ch = false) :
    splitSeps (ch :: cs) = (splitSeps cs).modifyHead (ch :: ·) := by
  simp only [splitSeps, h]
  cases hcs : splitSeps cs with
  | nil => exact absurd hcs (splitSeps_ne_nil cs)
  | cons p ps => simp [List.modifyHead]

/-- Splitting after a separator-free block prepends the block to the
first returned part. -/
theorem splitSeps_append_clean (b rest : List Char)
    (hb : ∀ ch ∈ b, isSep ch = false) :
    splitSeps (b ++ rest) = (splitSeps rest).modifyHead (b ++ ·) := by
  induction b with
  | nil =>
    cases h : splitSeps rest with
    | nil => exact absurd h (splitSeps_ne_nil rest)
    | cons p ps => simp [List.modifyHead, h]
  | cons ch b ih =>
    have hch : isSep ch = false := hb ch (by simp)
    have hb' : ∀ x ∈ b, isSep x = false := fun x hx => hb x (by simp [hx])
    rw [List.cons_append, splitSeps_nonsep_cons ch _ hch, ih hb']
    cases h : splitSeps rest with
    | nil => exact absurd h (splitSeps_ne_nil rest)
    | cons p ps => simp [List.modifyHead]

/-- Join a list of blocks with one separator character between each pair
of adjacent blocks, consuming separators from `seps`. -/
def joinSeps : List (List Char) → List Char → List Char
  | [], _ => []
  | [b], _ => b
  | b :: bs, [] => b ++ joinSeps bs []
  | b :: bs, sp :: sps => b ++ sp :: joinSeps bs sps

theorem joinSeps_single (b : List Char) (sps : List Char) :
    joinSeps [b] sps = b := by
  cases sps <;> rfl

theorem joinSeps_cons (b b2 : List Char) (bs : List (List Char))
    (sp : Char) (sps : List Char) :
    joinSeps (b :: b2 :: bs) (sp :: sps) = b ++ sp :: joinSeps (b2 :: bs) sps := rfl

/-- Splitting on the separator class recovers exactly the joined blocks,
provided the blocks are separator-free and the joining characters are
separators. -/
theorem splitSeps_joinSeps : ∀ (blocks : List (List Char)) (seps : List Char),
    (∀ b ∈ blocks, ∀ ch ∈ b, isSep ch = false) →
    (∀ sp ∈ seps, isSep sp = true) →
    blocks.length = seps.length + 1 →
    splitSeps (joinSeps blocks seps) = blocks := by
  intro blocks
  induction blocks with
  | nil => intro seps _ _ hlen; simp at hlen
  | cons b bs ih =>
    intro seps hb hs hlen
    cases bs with
    | nil =>
      have : seps.length = 0 := by simpa using hlen
      rw [joinSeps_single]
      have hbb : ∀ ch ∈ b, isSep ch = false := hb b (by simp)
      have := splitSeps_append_clean b [] hbb
      simpa [splitSeps, List.modifyHead] using this
    | cons b2 bs2 =>
      cases seps with
      | nil => simp at hlen
      | cons sp sps =>
        have hsp : isSep sp = true := hs sp (by simp)
        have hbb : ∀ ch ∈ b, isSep ch = false := hb b (by simp)
        rw [joinSeps_cons, splitSeps_append_clean b _ hbb,
          splitSeps_sep_cons sp _ hsp]
        have hrec : splitSeps (joinSeps (b2 :: bs2) sps) = b2 :: bs2 := by
          refine ih sps ?_ ?_ ?_
          · intro x hx ch hch
            exact hb x (by simp [hx]) ch hch
          · intro x hx
            exact hs x (by simp [hx])
          · simpa using hlen
        rw [hrec]
        simp [List.modifyHead]

/-! ## Adjacency of separators -/

/-- No two adjacent characters are both separators. -/
def noAdjSeps : List Char → Bool
  | [] => true
  | [_] => true
  | a :: b :: t => !(isSep a && isSep b) && noAdjSeps (b :: t)

theorem noAdjSeps_cons_of_nonsep (a : Char) (l : List Char)
    (h : isSep a = false) : noAdjSeps (a :: l) = noAdjSeps l := by
  cases l with
  | nil => simp [noAdjSeps]
  | cons b t => simp [noAdjSeps, h]

theorem noAdjSeps_of_all_nonsep (l : List Char)
    (h : ∀ ch ∈ l, isSep ch = false) : noAdjSeps l = true := by
  induction l with
  | nil => rfl
  | cons a t ih =>
    rw [noAdjSeps_cons_of_nonsep a t (h a (by simp))]
    exact ih fun ch hch => h ch (by simp [hch])

theorem noAdjSeps_append_clean (b l : List Char)
    (hb : ∀ ch ∈ b, isSep ch = false) (hl : noAdjSeps l = true) :
    noAdjSeps (b ++ l) = true := by
  induction b with
  | nil => simpa using hl
  | cons ch t ih =>
    rw [List.cons_append,
      noAdjSeps_cons_of_nonsep ch _ (hb ch (by simp))]
    exact ih fun x hx => hb x (by simp [hx])

theorem noAdjSeps_cons_of_head_nonsep (a : Char) (l : List Char)
    (hh : ∀ ch, l.head? = some ch → isSep ch = false)
    (hl : noAdjSeps l = true) : noAdjSeps (a :: l) = true := by
  cases l with
  | nil => rfl
  | cons b t =>
    have hb : isSep b = false := hh b rfl
    simpa [noAdjSeps, hb] using hl

theorem joinSeps_head? : ∀ (b : List Char) (bs : List (List Char)) (seps : List Char),
    b ≠ [] → (joinSeps (b :: bs) seps).head? = b.head? := by
  intro b bs seps hb
  cases b with
  | nil => exact absurd rfl hb
  | cons ch t =>
    cases bs with
    | nil => rw [joinSeps_single]
    | cons b2 bs2 =>
      cases seps with
      | nil => simp [joinSeps]
      | cons sp sps => simp [joinSeps_cons]

theorem joinSeps_ne_nil (b : List Char) (bs : List (List Char)) (seps : List Char)
    (hb : b ≠ []) : joinSeps (b :: bs) seps ≠ [] := by
  intro h
  have := joinSeps_head? b bs seps hb
  rw [h] at this
  cases b with
  | nil => exact hb rfl
  | cons ch t => simp at this

theorem joinSeps_getLast? : ∀ (bs : List (List Char)) (b : List Char) (seps : List Char),
    b ≠ [] → (∀ x ∈ bs, x ≠ []) →
    ∃ c : List Char, (c ∈ b :: bs) ∧
      (joinSeps (b :: bs) seps).getLast? = c.getLast? := by
  intro bs
  induction bs with
  | nil =>
    intro b seps hb _
    exact ⟨b, by simp, by rw [joinSeps_single]⟩
  | cons b2 bs2 ih =>
    intro b seps hb hbs
    have hb2 : b2 ≠ [] := hbs b2 (by simp)
    have hbs2 : ∀ x ∈ bs2, x ≠ [] := fun x hx => hbs x (by simp [hx])
    obtain ⟨c, hc, hlast⟩ := ih b2 seps.tail hb2 hbs2
    have hrecne : joinSeps (b2 :: bs2) seps.tail ≠ [] :=
      joinSeps_ne_nil b2 bs2 seps.tail hb2
    refine ⟨c, by simpa using Or.inr hc, ?_⟩
    cases seps with
    | nil =>
      show (b ++ joinSeps (b2 :: bs2) []).getLast? = c.getLast?
      rw [List.getLast?_append_of_ne_nil _ (by simpa using hrecne)]
      simpa using hlast
    | cons sp sps =>
      rw [joinSeps_cons]
      rw [List.getLast?_append_of_ne_nil _ (by simp)]
      rw [show sp :: joinSeps (b2 :: bs2) sps = [sp] ++ joinSeps (b2 :: bs2) sps by simp]
      rw [List.getLast?_append_of_ne_nil _ (by simpa using hrecne)]
      simpa using hlast

theorem mem_joinSeps : ∀ (blocks : List (List Char)) (seps : List Char) (ch : Char),
    ch ∈ joinSeps blocks seps → (∃ b ∈ blocks, ch ∈ b) ∨ ch ∈ seps := by
  intro blocks
  induction blocks with
  | nil => intro seps ch h; simp [joinSeps] at h
  | cons b bs ih =>
    intro seps ch h
    cases bs with
    | nil =>
      rw [joinSeps_single] at h
      exact Or.inl ⟨b, by simp, h⟩
    | cons b2 bs2 =>
      cases seps with
      | nil =>
        have : ch ∈ b ∨ ch ∈ joinSeps (b2 :: bs2) [] := by
          simpa [joinSeps] using h
        rcases this with h1 | h2
        · exact Or.inl ⟨b, by simp, h1⟩
        · rcases ih [] ch h2 with ⟨x, hx, hchx⟩ | hsp
          · exact Or.inl ⟨x, by simp [hx], hchx⟩
          · simp at hsp
      | cons sp sps =>
        rw [joinSeps_cons] at h
        rcases List.mem_append.1 h with h1 | h2
        · exact Or.inl ⟨b, by simp, h1⟩
        · rcases List.mem_cons.1 h2 with rfl | h3
          · exact Or.inr (by simp)
          · rcases ih sps ch h3 with ⟨x, hx, hchx⟩ | hsp
            · exact Or.inl ⟨x, by simp [hx], hchx⟩
            · exact Or.inr (by simp [hsp])

theorem noAdjSeps_joinSeps : ∀ (blocks : List (List Char)) (seps : List Char),
    blocks ≠ [] →
    (∀ b ∈ blocks, b ≠ [] ∧ ∀ ch ∈ b, isSep ch = false) →
    noAdjSeps (joinSeps blocks seps) = true := by
  intro blocks
  induction blocks with
  | nil => intro seps h; exact absurd rfl h
  | cons b bs ih =>
    intro seps _ hb
    obtain ⟨hbne, hbclean⟩ := hb b (by simp)
    cases bs with
    | nil =>
      rw [joinSeps_single]
      exact noAdjSeps_of_all_nonsep b hbclean
    | cons b2 bs2 =>
      have hb2 := hb b2 (by simp)
      have hrec : noAdjSeps (joinSeps (b2 :: bs2) seps.tail) = true :=
        ih seps.tail (by simp) (fun x hx => hb x (by simp [hx]))
      have hhead : ∀ ch, (joinSeps (b2 :: bs2) seps.tail).head? = some ch →
          isSep ch = false := by
        intro ch hch
        rw [joinSeps_head? b2 bs2 seps.tail hb2.1] at hch
        exact hb2.2 ch (List.mem_of_mem_head? hch)
      cases seps with
      | nil =>
        show noAdjSeps (b ++ joinSeps (b2 :: bs2) []) = true
        exact noAdjSeps_append_clean b _ hbclean (by simpa using hrec)
      | cons sp sps =>
        rw [joinSeps_cons]
        refine noAdjSeps_append_clean b _ hbclean ?_
        exact noAdjSeps_cons_of_head_nonsep sp _ (by simpa using hhead)
          (by simpa using hrec)

/-! ## Character classes -/

/-- Accented letters that may occur in the generator output (the French
vowels of the spec, lower and upper case). -/
def accentedLetters : List Char :=
  ['é', 'è', 'ê', 'à', 'ù', 'û', 'ç', 'É', 'È', 'Ê', 'À', 'Ù', 'Û', 'Ç']

/-- Alphabetic characters in the sense of the spec: ASCII letters plus
the accented letters of the French syllable alphabet. -/
def isAlphaChar (ch : Char) : Bool :=
  ('A' ≤ ch && ch ≤ 'Z') || ('a' ≤ ch && ch ≤ 'z') || accentedLetters.contains ch

def isDigitChar (ch : Char) : Bool :=
  '0' ≤ ch && ch ≤ '9'

def digitChars : List Char :=
  ['0', '1', '2', '3', '4', '5', '6', '7', '8', '9']

theorem digitChars_classes :
    ∀ ch ∈ digitChars,
      isDigitChar ch = true ∧ isAlphaChar ch = false ∧ isSep ch = false := by
  decide

/-! ## Spec-modelled password generator

Modelled from the spec: the class `PasswordGenerator` of
`password_generator.py` is imported by `Clinkey/verification_patterns.py`
and `Clinkey/test_password_generator.py` but its source file is not part
of the repository snapshot.  The definitions below follow the
specification text (sections 3, 4.1 and 7): syllables are a consonant
unit followed by a vowel, words are 2-4 syllables with a random casing
transform, digit blocks have a length drawn from a configured range,
symbol blocks are 1-2 characters from the special set, and the blocks of
each tier pattern are joined by separators drawn from `-`, `_`, `.`, `|`.
Randomness is a stream `Nat → Nat`; draw `i` of the stream decides choice
number `i`, reduced modulo the size of the candidate set. -/

/-- A random source: one natural number per random draw. -/
abbrev Rand := Nat → Nat

/-- Modelled from the spec: optional configuration knobs (word syllable
count range, digit-length range, candidate sets).  Integer bounds so that
a negative range is expressible, as in the error-handling section of the
spec. -/
structure Config where
  wordSylMin : Int := 2
  wordSylMax : Int := 4
  digitMin : Int := 2
  digitMax : Int := 6
  consonants : List String :=
    ["b", "c", "d", "f", "g", "j", "l", "m", "n", "p", "r", "s", "t", "v",
     "z", "tr", "ch", "br", "cl", "dr", "fr", "gr", "pl", "pr"]
  vowels : List String := ["a", "e", "i", "o", "u", "é", "è", "ù"]
  separators : List Char := ['-', '_', '.', '|']
  symbols : List Char := ['!', '@', '#', '$', '%', '^', '&', '*', '?', '§', 'µ']

/-- The default configuration. -/
def defaultConfig : Config := {}

/-- Modelled from the spec: a configuration is well formed when its
ranges are sane (at least one syllable, at least one digit, min not above
max) and no required candidate set is empty. -/
def Config.valid (c : Config) : Bool :=
  (1 ≤ c.wordSylMin && c.wordSylMin ≤ c.wordSylMax) &&
  (1 ≤ c.digitMin && c.digitMin ≤ c.digitMax) &&
  (!c.consonants.isEmpty && !c.vowels.isEmpty) &&
  (!c.separators.isEmpty && !c.symbols.isEmpty)

/-- Uniform choice out of a list of characters, draw value `r`. -/
def pickC (l : List Char) (r : Nat) : Char :=
  match l with
  | [] => '-'
  | a :: t => (a :: t).get ⟨r % (a :: t).length, Nat.mod_lt _ (Nat.succ_pos _)⟩

/-- Uniform choice out of a list of strings, draw value `r`. -/
def pickS (l : List String) (r : Nat) : String :=
  match l with
  | [] => ""
  | a :: t => (a :: t).get ⟨r % (a :: t).length, Nat.mod_lt _ (Nat.succ_pos _)⟩

theorem pickC_mem (l : List Char) (r : Nat) (h : l ≠ []) : pickC l r ∈ l := by
  cases l with
  | nil => exact absurd rfl h
  | cons a t => exact List.get_mem _ _ _

theorem pickS_mem (l : List String) (r : Nat) (h : l ≠ []) : pickS l r ∈ l := by
  cases l with
  | nil => exact absurd rfl h
  | cons a t => exact List.get_mem _ _ _

/-- The three casing transforms of spec step 2. -/
inductive Casing where
  | upperAll
  | capitalized
  | asGenerated
deriving DecidableEq

def pickCasing (r : Nat) : Casing :=
  match r % 3 with
  | 0 => .upperAll
  | 1 => .capitalized
  | _ => .asGenerated

def applyCasing : Casing → List Char → List Char
  | .upperAll, l => l.map Char.toUpper
  | .capitalized, [] => []
  | .capitalized, ch :: t => Char.toUpper ch :: t
  | .asGenerated, l => l

/-- Number of syllables of the word whose first draw is `i`. -/
def sylCount (c : Config) (s : Rand) (i : Nat) : Nat :=
  c.wordSylMin.toNat + s i % (c.wordSylMax.toNat - c.wordSylMin.toNat + 1)

/-- `n` syllables starting at draw `i`: each syllable consumes two draws,
one consonant unit and one vowel. -/
def genSyls (c : Config) (s : Rand) : Nat → Nat → List Char
  | 0, _ => []
  | n + 1, i =>
    (pickS c.consonants (s i)).data ++ (pickS c.vowels (s (i + 1))).data ++
      genSyls c s n (i + 2)

/-- A word block: draw `i` picks the syllable count, draw `i + 1` the
casing transform, draws `i + 2` onwards the syllables. -/
def genWordVal (c : Config) (s : Rand) (i : Nat) : List Char :=
  applyCasing (pickCasing (s (i + 1))) (genSyls c s (sylCount c s i) (i + 2))

def wordEnd (c : Config) (s : Rand) (i : Nat) : Nat :=
  i + 2 + 2 * sylCount c s i

/-- Length of the digit block whose first draw is `i`. -/
def digLen (c : Config) (s : Rand) (i : Nat) : Nat :=
  c.digitMin.toNat + s i % (c.digitMax.toNat - c.digitMin.toNat + 1)

/-- A digit block: draw `i` picks the length, the following draws pick
the digits. -/
def genDigitsVal (c : Config) (s : Rand) (i : Nat) : List Char :=
  (List.range (digLen c s i)).map fun k => pickC digitChars (s (i + 1 + k))

def digitsEnd (c : Config) (s : Rand) (i : Nat) : Nat :=
  i + 1 + digLen c s i

/-- Length of the symbol block whose first draw is `i`: 1 or 2. -/
def symLen (s : Rand) (i : Nat) : Nat :=
  1 + s i % 2

/-- A symbol block: draw `i` picks the length, the following draws pick
the symbols. -/
def genSymbolVal (c : Config) (s : Rand) (i : Nat) : List Char :=
  (List.range (symLen s i)).map fun k => pickC c.symbols (s (i + 1 + k))

def symbolEnd (s : Rand) (i : Nat) : Nat :=
  i + 1 + symLen s i

/-- The block kinds of a tier pattern (pattern-as-data, spec section 3). -/
inductive BlockKind where
  | word
  | digits
  | symbol
deriving DecidableEq

def genBlockVal (c : Config) (s : Rand) (i : Nat) : BlockKind → List Char
  | .word => genWordVal c s i
  | .digits => genDigitsVal c s i
  | .symbol => genSymbolVal c s i

def blockEnd (c : Config) (s : Rand) (i : Nat) : BlockKind → Nat
  | .word => wordEnd c s i
  | .digits => digitsEnd c s i
  | .symbol => symbolEnd s i

/-- The blocks of a pattern, generated left to right from draw `i`. -/
def genBlocks (c : Config) (s : Rand) : List BlockKind → Nat → List (List Char)
  | [], _ => []
  | k :: ks, i => genBlockVal c s i k :: genBlocks c s ks (blockEnd c s i k)

def blocksEnd (c : Config) (s : Rand) : List BlockKind → Nat → Nat
  | [], i => i
  | k :: ks, i => blocksEnd c s ks (blockEnd c s i k)

/-- The separators for `n` junctions, one draw each, starting at draw `i`. -/
def genSeps (c : Config) (s : Rand) (n : Nat) (i : Nat) : List Char :=
  (List.range n).map fun j => pickC c.separators (s (i + j))

/-- Assemble one password for a pattern: generate the blocks, then the
junction separators, and join. -/
def assemble (c : Config) (s : Rand) (pat : List BlockKind) : List Char :=
  joinSeps (genBlocks c s pat 0)
    (genSeps c s (pat.length - 1) (blocksEnd c s pat 0))

def normalPattern : List BlockKind :=
  [.word, .word, .word, .word]

def strongPattern : List BlockKind :=
  [.word, .digits, .word, .digits, .word, .digits]

def superStrongPattern : List BlockKind :=
  [.word, .symbol, .digits, .word, .symbol, .digits, .word]

/-- Modelled from the spec: the configuration error of section 7. -/
inductive GenError where
  | invalidConfiguration
deriving DecidableEq

/-- Modelled from the spec: `generate_normal`.  The configuration is
validated at the boundary, before any randomness is consumed. -/
def generate_normal (c : Config) (s : Rand) : Except GenError String :=
  if c.valid then .ok (String.mk (assemble c s normalPattern))
  else .error .invalidConfiguration

/-- Modelled from the spec: `generate_strong`. -/
def generate_strong (c : Config) (s : Rand) : Except GenError String :=
  if c.valid then .ok (String.mk (assemble c s strongPattern))
  else .error .invalidConfiguration

/-- Modelled from the spec: `generate_super_strong`. -/
def generate_super_strong (c : Config) (s : Rand) : Except GenError String :=
  if c.valid then .ok (String.mk (assemble c s superStrongPattern))
  else .error .invalidConfiguration

/-! ## Well-formed configurations and block properties -/

/-- A candidate consonant unit or vowel: a nonempty string of alphabetic,
non-separator characters that stay alphabetic and non-separator under the
upper-casing transform. -/
def goodLetterStr (w : String) : Bool :=
  !w.data.isEmpty && w.data.all fun ch =>
    isAlphaChar ch && !isSep ch &&
    isAlphaChar (Char.toUpper ch) && !isSep (Char.toUpper ch)

/-- Modelled from the spec: a fully well-formed configuration.  On top of
`Config.valid` this pins the invariants of spec section 3: words are made
of alphabetic characters, separators lie in the class `[-_.|]`, and the
special-character set is disjoint from letters, digits and separators. -/
def Config.wellFormed (c : Config) : Bool :=
  c.valid &&
  c.consonants.all goodLetterStr && c.vowels.all goodLetterStr &&
  c.separators.all isSep &&
  c.symbols.all fun ch => !isAlphaChar ch && !isDigitChar ch && !isSep ch

theorem wellFormed_valid {c : Config} (h : c.wellFormed = true) :
    c.valid = true := by
  simp only [Config.wellFormed, Bool.and_eq_true] at h
  exact h.1.1.1.1

theorem valid_bounds {c : Config} (h : c.valid = true) :
    1 ≤ c.wordSylMin ∧ c.wordSylMin ≤ c.wordSylMax ∧
    1 ≤ c.digitMin ∧ c.digitMin ≤ c.digitMax ∧
    c.consonants ≠ [] ∧ c.vowels ≠ [] ∧
    c.separators ≠ [] ∧ c.symbols ≠ [] := by
  simp only [Config.valid, Bool.and_eq_true, decide_eq_true_eq, Bool.not_eq_true',
    List.isEmpty_eq_false_iff_exists_mem] at h
  obtain ⟨⟨⟨hw, hd⟩, hcv⟩, hss⟩ := h
  refine ⟨hw.1, hw.2, hd.1, hd.2, ?_, ?_, ?_, ?_⟩
  · obtain ⟨x, hx⟩ := hcv.1; exact List.ne_nil_of_mem hx
  · obtain ⟨x, hx⟩ := hcv.2; exact List.ne_nil_of_mem hx
  · obtain ⟨x, hx⟩ := hss.1; exact List.ne_nil_of_mem hx
  · obtain ⟨x, hx⟩ := hss.2; exact List.ne_nil_of_mem hx

/-- The facts `goodLetterStr` gives about every character of a candidate. -/
theorem goodLetterStr_chars {w : String} (h : goodLetterStr w = true) :
    w.data ≠ [] ∧ ∀ ch ∈ w.data,
      isAlphaChar ch = true ∧ isSep ch = false ∧
      isAlphaChar (Char.toUpper ch) = true ∧ isSep (Char.toUpper ch) = false := by
  simp only [goodLetterStr, Bool.and_eq_true, Bool.not_eq_true',
    List.all_eq_true] at h
  refine ⟨?_, ?_⟩
  · intro hnil
    rw [hnil] at h
    simp [List.isEmpty] at h
  · intro ch hch
    obtain ⟨_, hall⟩ := h
    have := hall ch hch
    exact ⟨this.1.1.1, this.1.1.2, this.1.2, this.2⟩

theorem wellFormed_consonant {c : Config} (h : c.wellFormed = true)
    {w : String} (hw : w ∈ c.consonants) : goodLetterStr w = true := by
  simp only [Config.wellFormed, Bool.and_eq_true, List.all_eq_true] at h
  exact h.1.1.1.2 w hw

theorem wellFormed_vowel {c : Config} (h : c.wellFormed = true)
    {w : String} (hw : w ∈ c.vowels) : goodLetterStr w = true := by
  simp only [Config.wellFormed, Bool.and_eq_true, List.all_eq_true] at h
  exact h.1.1.2 w hw

theorem wellFormed_sep {c : Config} (h : c.wellFormed = true)
    {ch : Char} (hch : ch ∈ c.separators) : isSep ch = true := by
  simp only [Config.wellFormed, Bool.and_eq_true, List.all_eq_true] at h
  exact h.1.2 ch hch

theorem wellFormed_symbol {c : Config} (h : c.wellFormed = true)
    {ch : Char} (hch : ch ∈ c.symbols) :
    isAlphaChar ch = false ∧ isDigitChar ch = false ∧ isSep ch = false := by
  simp only [Config.wellFormed, Bool.and_eq_true, List.all_eq_true,
    Bool.not_eq_true'] at h
  have := h.2 ch hch
  exact ⟨this.1.1, this.1.2, this.2⟩

/-- Every character of a generated syllable sequence is an alphabetic
non-separator, in both its generated and upper-cased form. -/
theorem genSyls_chars {c : Config} (hwf : c.wellFormed = true) (s : Rand) :
    ∀ (n i : Nat), ∀ ch ∈ genSyls c s n i,
      isAlphaChar ch = true ∧ isSep ch = false ∧
      isAlphaChar (Char.toUpper ch) = true ∧ isSep (Char.toUpper ch) = false := by
  intro n
  induction n with
  | zero => intro i ch hch; simp [genSyls] at hch
  | succ n ih =>
    intro i ch hch
    have hv := valid_bounds (wellFormed_valid hwf)
    simp only [genSyls, List.append_assoc, List.mem_append] at hch
    rcases hch with hc | hc | hc
    · exact (goodLetterStr_chars
        (wellFormed_consonant hwf (pickS_mem _ _ hv.2.2.2.2.1))).2 ch hc
    · exact (goodLetterStr_chars
        (wellFormed_vowel hwf (pickS_mem _ _ hv.2.2.2.2.2.1))).2 ch hc
    · exact ih (i + 2) ch hc

theorem genSyls_ne_nil {c : Config} (hwf : c.wellFormed = true) (s : Rand)
    (n i : Nat) : genSyls c s (n + 1) i ≠ [] := by
  have hv := valid_bounds (wellFormed_valid hwf)
  have hcons := goodLetterStr_chars
    (wellFormed_consonant hwf (pickS_mem c.consonants (s i) hv.2.2.2.2.1))
  simp only [genSyls]
  intro h
  rcases List.append_eq_nil.1 h with ⟨h1, _⟩
  rcases List.append_eq_nil.1 (by simpa using h1) with ⟨h2, _⟩
  exact hcons.1 h2

theorem applyCasing_ne_nil (k : Casing) (l : List Char) (h : l ≠ []) :
    applyCasing k l ≠ [] := by
  cases k with
  | upperAll => simpa [applyCasing] using h
  | capitalized => cases l with
    | nil => exact absurd rfl h
    | cons ch t => simp [applyCasing]
  | asGenerated => simpa [applyCasing] using h

theorem applyCasing_chars (k : Casing) (l : List Char)
    (P : Char → Prop)
    (h : ∀ ch ∈ l, P ch ∧ P (Char.toUpper ch)) :
    ∀ ch ∈ applyCasing k l, P ch := by
  cases k with
  | upperAll =>
    intro ch hch
    simp only [applyCasing, List.mem_map] at hch
    obtain ⟨x, hx, rfl⟩ := hch
    exact (h x hx).2
  | capitalized =>
    cases l with
    | nil => intro ch hch; simp [applyCasing] at hch
    | cons a t =>
      intro ch hch
      simp only [applyCasing, List.mem_cons] at hch
      rcases hch with rfl | hch
      · exact (h a (by simp)).2
      · exact (h ch (by simp [hch])).1
  | asGenerated =>
    intro ch hch
    exact (h ch hch).1

/-- A generated word block is nonempty and consists of alphabetic,
non-separator characters. -/
theorem genWordVal_props {c : Config} (hwf : c.wellFormed = true) (s : Rand)
    (i : Nat) :
    genWordVal c s i ≠ [] ∧
    ∀ ch ∈ genWordVal c s i, isAlphaChar ch = true ∧ isSep ch = false := by
  have hv := valid_bounds (wellFormed_valid hwf)
  have hcount : 1 ≤ sylCount c s i := by
    have : (1 : Nat) ≤ c.wordSylMin.toNat := by omega
    simp only [sylCount]
    omega
  constructor
  · obtain ⟨m, hm⟩ : ∃ m, sylCount c s i = m + 1 :=
      ⟨sylCount c s i - 1, by omega⟩
    rw [genWordVal, hm]
    exact applyCasing_ne_nil _ _ (genSyls_ne_nil hwf s m (i + 2))
  · intro ch hch
    refine applyCasing_chars _ _
      (fun x => isAlphaChar x = true ∧ isSep x = false) ?_ ch hch
    intro x hx
    have := genSyls_chars hwf s (sylCount c s i) (i + 2) x hx
    exact ⟨⟨this.1, this.2.1⟩, this.2.2.1, this.2.2.2⟩

/-- The length of a digit block lies in the configured range. -/
theorem digLen_bounds {c : Config} (hval : c.valid = true) (s : Rand) (i : Nat) :
    1 ≤ digLen c s i ∧
    c.digitMin.toNat ≤ digLen c s i ∧ digLen c s i ≤ c.digitMax.toNat := by
  have hv := valid_bounds hval
  have hmod : s i % (c.digitMax.toNat - c.digitMin.toNat + 1) <
      c.digitMax.toNat - c.digitMin.toNat + 1 :=
    Nat.mod_lt _ (Nat.succ_pos _)
  simp only [digLen]
  omega

/-- A generated digit block: its length is `digLen` and every character
is one of the ten digits. -/
theorem genDigitsVal_props {c : Config} (hval : c.valid = true) (s : Rand)
    (i : Nat) :
    (genDigitsVal c s i).length = digLen c s i ∧
    genDigitsVal c s i ≠ [] ∧
    ∀ ch ∈ genDigitsVal c s i,
      isDigitChar ch = true ∧ isAlphaChar ch = false ∧ isSep ch = false := by
  have hlen : (genDigitsVal c s i).length = digLen c s i := by
    simp [genDigitsVal]
  have hb := digLen_bounds hval s i
  refine ⟨hlen, ?_, ?_⟩
  · intro h
    rw [h] at hlen
    simp at hlen
    omega
  · intro ch hch
    simp only [genDigitsVal, List.mem_map] at hch
    obtain ⟨k, _, rfl⟩ := hch
    exact digitChars_classes _ (pickC_mem digitChars _ (by simp [digitChars]))

/-- A generated symbol block: its length is 1 or 2 and every character
comes from the configured special set. -/
theorem genSymbolVal_props {c : Config} (hwf : c.wellFormed = true) (s : Rand)
    (i : Nat) :
    (genSymbolVal c s i).length = symLen s i ∧
    (1 ≤ symLen s i ∧ symLen s i ≤ 2) ∧
    genSymbolVal c s i ≠ [] ∧
    ∀ ch ∈ genSymbolVal c s i, ch ∈ c.symbols := by
  have hv := valid_bounds (wellFormed_valid hwf)
  have hlen : (genSymbolVal c s i).length = symLen s i := by
    simp [genSymbolVal]
  have hmod : s i % 2 < 2 := Nat.mod_lt _ (by omega)
  have hsym : 1 ≤ symLen s i ∧ symLen s i ≤ 2 := by
    simp only [symLen]; omega
  refine ⟨hlen, hsym, ?_, ?_⟩
  · intro h
    rw [h] at hlen
    simp at hlen
    omega
  · intro ch hch
    simp only [genSymbolVal, List.mem_map] at hch
    obtain ⟨k, _, rfl⟩ := hch
    exact pickC_mem c.symbols _ hv.2.2.2.2.2.2.2

/-! ## Part classes and splitting the assembled password -/

/-- The character class of one part of a split password. -/
inductive PartClass where
  | alphaP
  | digitP
  | symbolP
  | otherP
deriving DecidableEq

/-- All-alphabetic nonempty part, the shape of a word block. -/
def isAlphaPart (p : String) : Bool :=
  !p.data.isEmpty && p.data.all isAlphaChar

/-- All-digit nonempty part, the shape of a digit block. -/
def isDigitPart (p : String) : Bool :=
  !p.data.isEmpty && p.data.all isDigitChar

/-- Nonempty part drawn only from the special-character set `syms`. -/
def isSymbolPart (syms : List Char) (p : String) : Bool :=
  !p.data.isEmpty && p.data.all (syms.contains ·)

def classOf (syms : List Char) (p : String) : PartClass :=
  if isAlphaPart p then .alphaP
  else if isDigitPart p then .digitP
  else if isSymbolPart syms p then .symbolP
  else .otherP

/-- Model of `re.split(r"[-_.|]", password)` at the `String` level. -/
def splitParts (p : String) : List String :=
  (splitSeps p.data).map String.mk

/-- The part class a block kind must produce. -/
def kindClass : BlockKind → PartClass
  | .word => .alphaP
  | .digits => .digitP
  | .symbol => .symbolP

theorem isEmpty_false_of_ne_nil {α : Type} {l : List α} (h : l ≠ []) :
    l.isEmpty = false := by
  cases l with
  | nil => exact absurd rfl h
  | cons a t => rfl

theorem isAlphaPart_mk_of_all {l : List Char} (hne : l ≠ [])
    (h : ∀ ch ∈ l, isAlphaChar ch = true) : isAlphaPart (String.mk l) = true := by
  simp only [isAlphaPart, Bool.and_eq_true, Bool.not_eq_true',
    List.all_eq_true]
  exact ⟨isEmpty_false_of_ne_nil hne, h⟩

theorem isAlphaPart_mk_of_head {l : List Char} (hne : l ≠ [])
    (h : ∀ ch ∈ l, isAlphaChar ch = false) : isAlphaPart (String.mk l) = false := by
  cases l with
  | nil => exact absurd rfl hne
  | cons a t =>
    simp only [isAlphaPart, Bool.and_eq_false_iff]
    right
    simp only [List.all_eq_false]
    exact ⟨a, by simp, by simp [h a (by simp)]⟩

theorem isDigitPart_mk_of_all {l : List Char} (hne : l ≠ [])
    (h : ∀ ch ∈ l, isDigitChar ch = true) : isDigitPart (String.mk l) = true := by
  simp only [isDigitPart, Bool.and_eq_true, Bool.not_eq_true', List.all_eq_true]
  exact ⟨isEmpty_false_of_ne_nil hne, h⟩

theorem isDigitPart_mk_of_head {l : List Char} (hne : l ≠ [])
    (h : ∀ ch ∈ l, isDigitChar ch = false) : isDigitPart (String.mk l) = false := by
  cases l with
  | nil => exact absurd rfl hne
  | cons a t =>
    simp only [isDigitPart, Bool.and_eq_false_iff]
    right
    simp only [List.all_eq_false]
    exact ⟨a, by simp, by simp [h a (by simp)]⟩

theorem isSymbolPart_mk_of_all {syms : List Char} {l : List Char} (hne : l ≠ [])
    (h : ∀ ch ∈ l, ch ∈ syms) : isSymbolPart syms (String.mk l) = true := by
  simp only [isSymbolPart, Bool.and_eq_true, Bool.not_eq_true', List.all_eq_true]
  refine ⟨isEmpty_false_of_ne_nil hne, ?_⟩
  intro ch hch
  simpa using h ch hch

/-- Class of a generated word block. -/
theorem classOf_word {c : Config} (hwf : c.wellFormed = true) (s : Rand) (i : Nat) :
    classOf c.symbols (String.mk (genWordVal c s i)) = .alphaP := by
  obtain ⟨hne, hch⟩ := genWordVal_props hwf s i
  simp [classOf, isAlphaPart_mk_of_all hne fun ch h => (hch ch h).1]

/-- Class of a generated digit block. -/
theorem classOf_digits {c : Config} (hwf : c.wellFormed = true) (s : Rand) (i : Nat) :
    classOf c.symbols (String.mk (genDigitsVal c s i)) = .digitP := by
  obtain ⟨_, hne, hch⟩ := genDigitsVal_props (wellFormed_valid hwf) s i
  rw [classOf, if_neg, if_pos]
  · exact isDigitPart_mk_of_all hne fun ch h => (hch ch h).1
  · simp [isAlphaPart_mk_of_head hne fun ch h => (hch ch h).2.1]

/-- Class of a generated symbol block. -/
theorem classOf_symbol {c : Config} (hwf : c.wellFormed = true) (s : Rand) (i : Nat) :
    classOf c.symbols (String.mk (genSymbolVal c s i)) = .symbolP := by
  obtain ⟨_, _, hne, hch⟩ := genSymbolVal_props hwf s i
  have hcls : ∀ ch ∈ genSymbolVal c s i,
      isAlphaChar ch = false ∧ isDigitChar ch = false ∧ isSep ch = false :=
    fun ch h => wellFormed_symbol hwf (hch ch h)
  rw [classOf, if_neg, if_neg, if_pos]
  · exact isSymbolPart_mk_of_all hne hch
  · simp [isDigitPart_mk_of_head hne fun ch h => (hcls ch h).2.1]
  · simp [isAlphaPart_mk_of_head hne fun ch h => (hcls ch h).1]

/-- Every generated block is nonempty and separator-free. -/
theorem genBlocks_clean {c : Config} (hwf : c.wellFormed = true) (s : Rand) :
    ∀ (pat : List BlockKind) (i : Nat), ∀ b ∈ genBlocks c s pat i,
      b ≠ [] ∧ ∀ ch ∈ b, isSep ch = false := by
  intro pat
  induction pat with
  | nil => intro i b hb; simp [genBlocks] at hb
  | cons k ks ih =>
    intro i b hb
    simp only [genBlocks, List.mem_cons] at hb
    rcases hb with rfl | hb
    · cases k with
      | word =>
        obtain ⟨hne, hch⟩ := genWordVal_props hwf s i
        exact ⟨hne, fun ch h => (hch ch h).2⟩
      | digits =>
        obtain ⟨_, hne, hch⟩ := genDigitsVal_props (wellFormed_valid hwf) s i
        exact ⟨hne, fun ch h => (hch ch h).2.2⟩
      | symbol =>
        obtain ⟨_, _, hne, hch⟩ := genSymbolVal_props hwf s i
        exact ⟨hne, fun ch h => (wellFormed_symbol hwf (hch ch h)).2.2⟩
    · exact ih _ b hb

theorem genBlocks_length (c : Config) (s : Rand) :
    ∀ (pat : List BlockKind) (i : Nat),
      (genBlocks c s pat i).length = pat.length := by
  intro pat
  induction pat with
  | nil => intro i; rfl
  | cons k ks ih => intro i; simp [genBlocks, ih]

/-- The classes of the generated blocks follow the pattern. -/
theorem genBlocks_classes {c : Config} (hwf : c.wellFormed = true) (s : Rand) :
    ∀ (pat : List BlockKind) (i : Nat),
      (genBlocks c s pat i).map (fun b => classOf c.symbols (String.mk b)) =
        pat.map kindClass := by
  intro pat
  induction pat with
  | nil => intro i; rfl
  | cons k ks ih =>
    intro i
    simp only [genBlocks, List.map_cons, ih]
    congr 1
    cases k with
    | word => exact classOf_word hwf s i
    | digits => exact classOf_digits hwf s i
    | symbol => exact classOf_symbol hwf s i

theorem genSeps_length (c : Config) (s : Rand) (n i : Nat) :
    (genSeps c s n i).length = n := by
  simp [genSeps]

theorem genSeps_mem {c : Config} (hwf : c.wellFormed = true) (s : Rand)
    (n i : Nat) : ∀ sp ∈ genSeps c s n i, sp ∈ c.separators := by
  intro sp hsp
  simp only [genSeps, List.mem_map] at hsp
  obtain ⟨j, _, rfl⟩ := hsp
  exact pickC_mem c.separators _
    (valid_bounds (wellFormed_valid hwf)).2.2.2.2.2.2.1

/-- Splitting the assembled password on the separator class yields the
generated blocks, in order. -/
theorem splitSeps_assemble {c : Config} (hwf : c.wellFormed = true) (s : Rand)
    (pat : List BlockKind) (hpat : pat ≠ []) :
    splitSeps (assemble c s pat) = genBlocks c s pat 0 := by
  refine splitSeps_joinSeps _ _ ?_ ?_ ?_
  · intro b hb ch hch
    exact (genBlocks_clean hwf s pat 0 b hb).2 ch hch
  · intro sp hsp
    exact wellFormed_sep hwf (genSeps_mem hwf s _ _ sp hsp)
  · rw [genBlocks_length, genSeps_length]
    cases pat with
    | nil => exact absurd rfl hpat
    | cons k ks => simp

/-- The classes of the parts of an assembled password follow the pattern. -/
theorem splitParts_assemble_classes {c : Config} (hwf : c.wellFormed = true)
    (s : Rand) (pat : List BlockKind) (hpat : pat ≠ []) :
    (splitParts (String.mk (assemble c s pat))).map (classOf c.symbols) =
      pat.map kindClass := by
  have : splitParts (String.mk (assemble c s pat)) =
      (splitSeps (assemble c s pat)).map String.mk := rfl
  rw [this, splitSeps_assemble hwf s pat hpat, List.map_map]
  exact genBlocks_classes hwf s pat 0

/-- C1: for every call with a well-formed configuration, splitting the
password returned by `generate_normal` on the separator class `[-_.|]`
yields exactly 4 all-alphabetic parts, and splitting the password
returned by `generate_strong` yields exactly 6 parts alternating
all-alphabetic and all-digit in the order word, digits, word, digits,
word, digits. -/
theorem claim_C1 (c : Config) (s : Rand) (h : c.wellFormed = true) :
    ∃ pn ps : String,
      generate_normal c s = .ok pn ∧ generate_strong c s = .ok ps ∧
      (splitParts pn).map (classOf c.symbols) =
        [.alphaP, .alphaP, .alphaP, .alphaP] ∧
      (splitParts ps).map (classOf c.symbols) =
        [.alphaP, .digitP, .alphaP, .digitP, .alphaP, .digitP] := by
  have hval := wellFormed_valid h
  refine ⟨String.mk (assemble c s normalPattern),
    String.mk (assemble c s strongPattern), ?_, ?_, ?_, ?_⟩
  · simp [generate_normal, hval]
  · simp [generate_strong, hval]
  · simpa [normalPattern, kindClass] using
      splitParts_assemble_classes h s normalPattern (by simp [normalPattern])
  · simpa [strongPattern, kindClass] using
      splitParts_assemble_classes h s strongPattern (by simp [strongPattern])

/-- Witness for C1: the default configuration and the zero stream. -/
theorem claim_C1_witness :
    defaultConfig.wellFormed = true ∧
    ∃ pn ps : String,
      generate_normal defaultConfig (fun _ => 0) = .ok pn ∧
      generate_strong defaultConfig (fun _ => 0) = .ok ps ∧
      (splitParts pn).map (classOf defaultConfig.symbols) =
        [.alphaP, .alphaP, .alphaP, .alphaP] ∧
      (splitParts ps).map (classOf defaultConfig.symbols) =
        [.alphaP, .digitP, .alphaP, .digitP, .alphaP, .digitP] :=
  ⟨by decide, claim_C1 defaultConfig (fun _ => 0) (by decide)⟩

/-- C2: for every call with a well-formed configuration, splitting the
password returned by `generate_super_strong` on the separator class
`[-_.|]` yields exactly the block sequence word, symbol, digits, word,
symbol, digits, word: seven parts, each word part all-alphabetic, each
digits part all-digit, each symbol part drawn only from the declared
special-character set. -/
theorem claim_C2 (c : Config) (s : Rand) (h : c.wellFormed = true) :
    ∃ p : String,
      generate_super_strong c s = .ok p ∧
      (splitParts p).map (classOf c.symbols) =
        [.alphaP, .symbolP, .digitP, .alphaP, .symbolP, .digitP, .alphaP] := by
  have hval := wellFormed_valid h
  refine ⟨String.mk (assemble c s superStrongPattern), ?_, ?_⟩
  · simp [generate_super_strong, hval]
  · simpa [superStrongPattern, kindClass] using
      splitParts_assemble_classes h s superStrongPattern
        (by simp [superStrongPattern])

/-- Witness for C2: the default configuration and the zero stream. -/
theorem claim_C2_witness :
    defaultConfig.wellFormed = true ∧
    ∃ p : String,
      generate_super_strong defaultConfig (fun _ => 0) = .ok p ∧
      (splitParts p).map (classOf defaultConfig.symbols) =
        [.alphaP, .symbolP, .digitP, .alphaP, .symbolP, .digitP, .alphaP] :=
  ⟨by decide, claim_C2 defaultConfig (fun _ => 0) (by decide)⟩

theorem isSep_iff_mem (ch : Char) :
    isSep ch = true ↔ ch ∈ ['-', '_', '.', '|'] := by
  simp [isSep, or_assoc]

/-- Separator placement properties of an assembled password. -/
theorem assemble_sepProps {c : Config} (hwf : c.wellFormed = true) (s : Rand)
    (pat : List BlockKind) (hpat : pat ≠ []) :
    assemble c s pat ≠ [] ∧
    (∀ ch, (assemble c s pat).head? = some ch → isSep ch = false) ∧
    (∀ ch, (assemble c s pat).getLast? = some ch → isSep ch = false) ∧
    noAdjSeps (assemble c s pat) = true ∧
    (∀ ch ∈ assemble c s pat, isSep ch = true → ch ∈ c.separators) := by
  cases pat with
  | nil => exact absurd rfl hpat
  | cons k ks =>
    have hclean := genBlocks_clean hwf s (k :: ks) 0
    have hb0 : genBlockVal c s 0 k ≠ [] :=
      (hclean (genBlockVal c s 0 k) (by simp [genBlocks])).1
    have hblocks : genBlocks c s (k :: ks) 0 =
        genBlockVal c s 0 k :: genBlocks c s ks (blockEnd c s 0 k) := rfl
    refine ⟨?_, ?_, ?_, ?_, ?_⟩
    · show joinSeps (genBlocks c s (k :: ks) 0) _ ≠ []
      rw [hblocks]
      exact joinSeps_ne_nil _ _ _ hb0
    · intro ch hch
      show isSep ch = false
      rw [show assemble c s (k :: ks) =
        joinSeps (genBlocks c s (k :: ks) 0)
          (genSeps c s ((k :: ks).length - 1) (blocksEnd c s (k :: ks) 0)) from rfl,
        hblocks, joinSeps_head? _ _ _ hb0] at hch
      exact (hclean _ (by simp [genBlocks])).2 ch (List.mem_of_mem_head? hch)
    · intro ch hch
      rw [show assemble c s (k :: ks) =
        joinSeps (genBlocks c s (k :: ks) 0)
          (genSeps c s ((k :: ks).length - 1) (blocksEnd c s (k :: ks) 0)) from rfl,
        hblocks] at hch
      obtain ⟨blk, hblk, hlast⟩ := joinSeps_getLast?
        (genBlocks c s ks (blockEnd c s 0 k)) (genBlockVal c s 0 k)
        (genSeps c s ((k :: ks).length - 1) (blocksEnd c s (k :: ks) 0)) hb0
        (fun x hx => (hclean x (by simp [genBlocks, hx])).1)
      rw [hlast] at hch
      have hmem : ch ∈ blk := by
        obtain ⟨hne, rfl⟩ := List.mem_getLast?_eq_getLast (by simpa using hch)
        exact List.getLast_mem hne
      rw [← hblocks] at hblk
      exact (hclean blk hblk).2 ch hmem
    · show noAdjSeps (joinSeps (genBlocks c s (k :: ks) 0) _) = true
      refine noAdjSeps_joinSeps _ _ ?_ ?_
      · rw [hblocks]; simp
      · exact fun b hb => hclean b hb
    · intro ch hch hsep
      rcases mem_joinSeps _ _ ch hch with ⟨b, hb, hchb⟩ | hsp
      · rw [(hclean b hb).2 ch hchb] at hsep
        exact absurd hsep (by simp)
      · exact genSeps_mem hwf s _ _ ch hsp

/-- C3: in every generated password (any tier, well-formed
configuration) each separator is one character of the fixed set
`-`, `_`, `.`, `|`; separators occur only strictly between blocks: never
first, never last, and never twice in adjacent positions. -/
theorem claim_C3 (c : Config) (s : Rand) (h : c.wellFormed = true)
    (pw : String)
    (hpw : generate_normal c s = .ok pw ∨ generate_strong c s = .ok pw ∨
      generate_super_strong c s = .ok pw) :
    pw.data ≠ [] ∧
    (∀ ch, pw.data.head? = some ch → isSep ch = false) ∧
    (∀ ch, pw.data.getLast? = some ch → isSep ch = false) ∧
    noAdjSeps pw.data = true ∧
    (∀ ch ∈ pw.data, isSep ch = true →
      ch ∈ c.separators ∧ ch ∈ ['-', '_', '.', '|']) := by
  have hval := wellFormed_valid h
  have main : ∀ pat : List BlockKind, pat ≠ [] →
      pw.data = assemble c s pat →
      pw.data ≠ [] ∧
      (∀ ch, pw.data.head? = some ch → isSep ch = false) ∧
      (∀ ch, pw.data.getLast? = some ch → isSep ch = false) ∧
      noAdjSeps pw.data = true ∧
      (∀ ch ∈ pw.data, isSep ch = true →
        ch ∈ c.separators ∧ ch ∈ ['-', '_', '.', '|']) := by
    intro pat hpat hdata
    obtain ⟨h1, h2, h3, h4, h5⟩ := assemble_sepProps h s pat hpat
    rw [hdata]
    exact ⟨h1, h2, h3, h4, fun ch hch hsep =>
      ⟨h5 ch hch hsep, (isSep_iff_mem ch).1 hsep⟩⟩
  rcases hpw with hpw | hpw | hpw
  · refine main normalPattern (by simp [normalPattern]) ?_
    simp only [generate_normal, hval, if_true] at hpw
    cases hpw
    rfl
  · refine main strongPattern (by simp [strongPattern]) ?_
    simp only [generate_strong, hval, if_true] at hpw
    cases hpw
    rfl
  · refine main superStrongPattern (by simp [superStrongPattern]) ?_
    simp only [generate_super_strong, hval, if_true] at hpw
    cases hpw
    rfl

/-- Witness for C3: the normal tier, default configuration, zero stream. -/
theorem claim_C3_witness :
    defaultConfig.wellFormed = true ∧
    generate_normal defaultConfig (fun _ => 0) = .ok "BABA-BABA-BABA-BABA" ∧
    ("BABA-BABA-BABA-BABA" : String).data ≠ [] ∧
    (∀ ch, ("BABA-BABA-BABA-BABA" : String).data.head? = some ch →
      isSep ch = false) ∧
    (∀ ch, ("BABA-BABA-BABA-BABA" : String).data.getLast? = some ch →
      isSep ch = false) ∧
    noAdjSeps ("BABA-BABA-BABA-BABA" : String).data = true ∧
    (∀ ch ∈ ("BABA-BABA-BABA-BABA" : String).data, isSep ch = true →
      ch ∈ defaultConfig.separators ∧ ch ∈ ['-', '_', '.', '|']) :=
  ⟨by decide, rfl,
    claim_C3 defaultConfig (fun _ => 0) (by decide) "BABA-BABA-BABA-BABA"
      (Or.inl rfl)⟩

/-- C4: with the defaulted (well-formed) configuration, the three
generation operations are total: for every random stream each call
returns a password, and the error branch is not taken. -/
theorem claim_C4 (s : Rand) :
    (∃ p, generate_normal defaultConfig s = .ok p) ∧
    (∃ p, generate_strong defaultConfig s = .ok p) ∧
    (∃ p, generate_super_strong defaultConfig s = .ok p) := by
  have hval : defaultConfig.valid = true := by decide
  refine ⟨⟨String.mk (assemble defaultConfig s normalPattern), ?_⟩,
    ⟨String.mk (assemble defaultConfig s strongPattern), ?_⟩,
    ⟨String.mk (assemble defaultConfig s superStrongPattern), ?_⟩⟩
  · simp [generate_normal, hval]
  · simp [generate_strong, hval]
  · simp [generate_super_strong, hval]

/-- C5: for every malformed configuration every generation operation
returns the invalid-configuration error, and the result is independent
of the random stream; no partially-built password is ever returned
and no clamping occurs. -/
theorem claim_C5 (c : Config) (s t : Rand) (h : c.valid = false) :
    (generate_normal c s = .error .invalidConfiguration ∧
      generate_normal c s = generate_normal c t) ∧
    (generate_strong c s = .error .invalidConfiguration ∧
      generate_strong c s = generate_strong c t) ∧
    (generate_super_strong c s = .error .invalidConfiguration ∧
      generate_super_strong c s = generate_super_strong c t) := by
  simp [generate_normal, generate_strong, generate_super_strong, h]

/-- Witness for C5: a configuration with min word-count above max. -/
theorem claim_C5_witness :
    Config.valid { defaultConfig with wordSylMin := 5, wordSylMax := 2 } = false ∧
    ((generate_normal { defaultConfig with wordSylMin := 5, wordSylMax := 2 }
        (fun _ => 0) = .error .invalidConfiguration ∧
      generate_normal { defaultConfig with wordSylMin := 5, wordSylMax := 2 }
        (fun _ => 0) =
      generate_normal { defaultConfig with wordSylMin := 5, wordSylMax := 2 }
        (fun _ => 1)) ∧
    (generate_strong { defaultConfig with wordSylMin := 5, wordSylMax := 2 }
        (fun _ => 0) = .error .invalidConfiguration ∧
      generate_strong { defaultConfig with wordSylMin := 5, wordSylMax := 2 }
        (fun _ => 0) =
      generate_strong { defaultConfig with wordSylMin := 5, wordSylMax := 2 }
        (fun _ => 1)) ∧
    (generate_super_strong { defaultConfig with wordSylMin := 5, wordSylMax := 2 }
        (fun _ => 0) = .error .invalidConfiguration ∧
      generate_super_strong { defaultConfig with wordSylMin := 5, wordSylMax := 2 }
        (fun _ => 0) =
      generate_super_strong { defaultConfig with wordSylMin := 5, wordSylMax := 2 }
        (fun _ => 1))) :=
  ⟨by decide,
    claim_C5 { defaultConfig with wordSylMin := 5, wordSylMax := 2 }
      (fun _ => 0) (fun _ => 1) (by decide)⟩

/-- The per-kind contract of a generated block. -/
def blockProp (c : Config) : BlockKind → List Char → Prop
  | .word, b => b ≠ [] ∧ ∀ ch ∈ b, isAlphaChar ch = true
  | .digits, b => (∀ ch ∈ b, isDigitChar ch = true) ∧
      c.digitMin.toNat ≤ b.length ∧ b.length ≤ c.digitMax.toNat
  | .symbol, b => b ≠ [] ∧ ∀ ch ∈ b, ch ∈ c.symbols

theorem genBlocks_blockProp {c : Config} (hwf : c.wellFormed = true) (s : Rand) :
    ∀ (pat : List BlockKind) (i : Nat),
      List.Forall₂ (blockProp c) pat (genBlocks c s pat i) := by
  intro pat
  induction pat with
  | nil => intro i; exact List.Forall₂.nil
  | cons k ks ih =>
    intro i
    refine List.Forall₂.cons ?_ (ih _)
    cases k with
    | word =>
      show blockProp c .word (genWordVal c s i)
      obtain ⟨hne, hch⟩ := genWordVal_props hwf s i
      exact ⟨hne, fun ch h => (hch ch h).1⟩
    | digits =>
      show blockProp c .digits (genDigitsVal c s i)
      obtain ⟨hlen, _, hch⟩ := genDigitsVal_props (wellFormed_valid hwf) s i
      have hb := digLen_bounds (wellFormed_valid hwf) s i
      exact ⟨fun ch h => (hch ch h).1, by omega, by omega⟩
    | symbol =>
      show blockProp c .symbol (genSymbolVal c s i)
      obtain ⟨_, _, hne, hch⟩ := genSymbolVal_props hwf s i
      exact ⟨hne, hch⟩

/-- The digit-block contract of the claim: only digits, length within
the configured digit-length range. -/
def digitOk (c : Config) (d : String) : Prop :=
  (∀ ch ∈ d.data, isDigitChar ch = true) ∧
  c.digitMin.toNat ≤ d.length ∧ d.length ≤ c.digitMax.toNat

theorem digitOk_of_blockProp {c : Config} {b : List Char}
    (h : blockProp c .digits b) : digitOk c (String.mk b) := by
  obtain ⟨h1, h2, h3⟩ := h
  exact ⟨h1, h2, h3⟩

/-- C6: every digit block produced by `generate_strong` and
`generate_super_strong` consists only of the digits 0-9 and has length
within the configured digit-length range, on every single call. -/
theorem claim_C6 (c : Config) (s : Rand) (h : c.wellFormed = true) :
    ∃ ps pss : String,
      generate_strong c s = .ok ps ∧ generate_super_strong c s = .ok pss ∧
      ∃ w1 d1 w2 d2 w3 d3 u1 x1 e1 u2 x2 e2 u3 : String,
        splitParts ps = [w1, d1, w2, d2, w3, d3] ∧
        digitOk c d1 ∧ digitOk c d2 ∧ digitOk c d3 ∧
        splitParts pss = [u1, x1, e1, u2, x2, e2, u3] ∧
        digitOk c e1 ∧ digitOk c e2 := by
  have hval := wellFormed_valid h
  have hsplitS : splitParts (String.mk (assemble c s strongPattern)) =
      (genBlocks c s strongPattern 0).map String.mk := by
    show (splitSeps (assemble c s strongPattern)).map String.mk = _
    rw [splitSeps_assemble h s strongPattern (by simp [strongPattern])]
  have hsplitSS : splitParts (String.mk (assemble c s superStrongPattern)) =
      (genBlocks c s superStrongPattern 0).map String.mk := by
    show (splitSeps (assemble c s superStrongPattern)).map String.mk = _
    rw [splitSeps_assemble h s superStrongPattern (by simp [superStrongPattern])]
  have hFS : List.Forall₂ (blockProp c)
      [BlockKind.word, .digits, .word, .digits, .word, .digits]
      (genBlocks c s strongPattern 0) :=
    genBlocks_blockProp h s strongPattern 0
  have hFSS : List.Forall₂ (blockProp c)
      [BlockKind.word, .symbol, .digits, .word, .symbol, .digits, .word]
      (genBlocks c s superStrongPattern 0) :=
    genBlocks_blockProp h s superStrongPattern 0
  obtain ⟨a0, Y1, hw1, hFS, hE0⟩ := List.forall₂_cons_left_iff.1 hFS
  obtain ⟨a1, Y2, hd1, hFS, hE1⟩ := List.forall₂_cons_left_iff.1 hFS
  obtain ⟨a2, Y3, hw2, hFS, hE2⟩ := List.forall₂_cons_left_iff.1 hFS
  obtain ⟨a3, Y4, hd2, hFS, hE3⟩ := List.forall₂_cons_left_iff.1 hFS
  obtain ⟨a4, Y5, hw3, hFS, hE4⟩ := List.forall₂_cons_left_iff.1 hFS
  obtain ⟨a5, Y6, hd3, hFS, hE5⟩ := List.forall₂_cons_left_iff.1 hFS
  have hE6 : Y6 = [] := List.forall₂_nil_left_iff.1 hFS
  obtain ⟨b0, Z1, hv1, hFSS, hG0⟩ := List.forall₂_cons_left_iff.1 hFSS
  obtain ⟨b1, Z2, hx1, hFSS, hG1⟩ := List.forall₂_cons_left_iff.1 hFSS
  obtain ⟨b2, Z3, he1, hFSS, hG2⟩ := List.forall₂_cons_left_iff.1 hFSS
  obtain ⟨b3, Z4, hv2, hFSS, hG3⟩ := List.forall₂_cons_left_iff.1 hFSS
  obtain ⟨b4, Z5, hx2, hFSS, hG4⟩ := List.forall₂_cons_left_iff.1 hFSS
  obtain ⟨b5, Z6, he2, hFSS, hG5⟩ := List.forall₂_cons_left_iff.1 hFSS
  obtain ⟨b6, Z7, hv3, hFSS, hG6⟩ := List.forall₂_cons_left_iff.1 hFSS
  have hG7 : Z7 = [] := List.forall₂_nil_left_iff.1 hFSS
  rw [hE0, hE1, hE2, hE3, hE4, hE5, hE6] at hsplitS
  rw [hG0, hG1, hG2, hG3, hG4, hG5, hG6, hG7] at hsplitSS
  simp only [List.map_cons, List.map_nil] at hsplitS hsplitSS
  exact ⟨String.mk (assemble c s strongPattern),
    String.mk (assemble c s superStrongPattern),
    by simp [generate_strong, hval], by simp [generate_super_strong, hval],
    String.mk a0, String.mk a1, String.mk a2, String.mk a3, String.mk a4,
    String.mk a5, String.mk b0, String.mk b1, String.mk b2, String.mk b3,
    String.mk b4, String.mk b5, String.mk b6,
    hsplitS,
    digitOk_of_blockProp hd1, digitOk_of_blockProp hd2, digitOk_of_blockProp hd3,
    hsplitSS,
    digitOk_of_blockProp he1, digitOk_of_blockProp he2⟩

/-- Witness for C6: the default configuration and the zero stream. -/
theorem claim_C6_witness :
    defaultConfig.wellFormed = true ∧
    ∃ ps pss : String,
      generate_strong defaultConfig (fun _ => 0) = .ok ps ∧
      generate_super_strong defaultConfig (fun _ => 0) = .ok pss ∧
      ∃ w1 d1 w2 d2 w3 d3 u1 x1 e1 u2 x2 e2 u3 : String,
        splitParts ps = [w1, d1, w2, d2, w3, d3] ∧
        digitOk defaultConfig d1 ∧ digitOk defaultConfig d2 ∧
        digitOk defaultConfig d3 ∧
        splitParts pss = [u1, x1, e1, u2, x2, e2, u3] ∧
        digitOk defaultConfig e1 ∧ digitOk defaultConfig e2 :=
  ⟨by decide, claim_C6 defaultConfig (fun _ => 0) (by decide)⟩

/-! ## The pattern verifier, Clinkey/verification_patterns.py

The script prints its findings and asserts nothing; the definitions
below are the computations it performs on each generated password. -/

/-- Model of `re.match(r"^[A-Za-z]+$", part)` succeeding. -/
def matchAsciiLetters (p : String) : Bool :=
  !p.data.isEmpty && p.data.all fun ch =>
    ('A' ≤ ch && ch ≤ 'Z') || ('a' ≤ ch && ch ≤ 'z')

/-- Model of `re.match(r"^\d+$", part)` succeeding. -/
def matchDigits (p : String) : Bool :=
  !p.data.isEmpty && p.data.all isDigitChar

/-- Translated from verification_patterns.py line 54: the `letters_only`
value computed for a strong-tier password, ranging over the non-empty
parts of the split. -/
def strongLettersOnly (password : String) : Bool :=
  ((splitParts password).filter fun part => part != "").all
    fun part => matchAsciiLetters part || matchDigits part

/-- Translated from verification_patterns.py line 77: the `letters_only`
value computed for a normal-tier password. -/
def normalLettersOnly (password : String) : Bool :=
  ((splitParts password).filter fun part => part != "").all matchAsciiLetters

/-- Translated from verification_patterns.py lines 27, 50 and 73: the
part count the script prints (it is printed, never compared). -/
def partsCount (password : String) : Nat :=
  (splitParts password).length

/-- C7 counterexample: on the two-part password "ab" the per-password
boolean computed for the normal tier (and the one for the strong tier)
is true although the part count is 1, not the declared 4 (or 6): the
script does not verify that the count matches the declared pattern. -/
theorem claim_C7_counterexample :
    normalLettersOnly "ab" = true ∧ strongLettersOnly "ab" = true ∧
    partsCount "ab" = 1 ∧ ¬ partsCount "ab" = 4 ∧ ¬ partsCount "ab" = 6 := by
  decide

/-- C7 as amended: the script splits each password on the separator
class `[-_.|]` and computes the part list and count for display; the
only character-class checks it computes are position-blind: for the
normal tier that every non-empty part is all-ASCII-letters, and for the
strong tier that every non-empty part is all-ASCII-letters or
all-digits.  That is the exact content of the two booleans. -/
theorem claim_C7 (p : String) :
    (normalLettersOnly p = true ↔
      ∀ part ∈ splitParts p, ¬ part = "" → matchAsciiLetters part = true) ∧
    ((strongLettersOnly p = true ↔
      ∀ part ∈ splitParts p, ¬ part = "" →
        (matchAsciiLetters part || matchDigits part) = true) ∧
      partsCount p = (splitParts p).length) := by
  refine ⟨?_, ?_, rfl⟩
  · simp only [normalLettersOnly, List.all_eq_true, List.mem_filter]
    constructor
    · intro hall part hpart hne
      exact hall part ⟨hpart, by simpa using hne⟩
    · intro hall part hpart
      exact hall part hpart.1 (by simpa using hpart.2)
  · simp only [strongLettersOnly, List.all_eq_true, List.mem_filter]
    constructor
    · intro hall part hpart hne
      exact hall part ⟨hpart, by simpa using hne⟩
    · intro hall part hpart
      exact hall part hpart.1 (by simpa using hpart.2)

/-- Witness for C7 at the password "ab". -/
theorem claim_C7_witness :
    (normalLettersOnly "ab" = true ↔
      ∀ part ∈ splitParts "ab", ¬ part = "" →
        matchAsciiLetters part = true) :=
  (claim_C7 "ab").1

/-! ## Minimal POSIX path model

Paths are modelled as the canonical strings produced by
`str(PurePosixPath(...))`: no trailing slashes and no inner `.`
components (the sole path "." stands for the current directory). -/

/-- The characters of the last path component. -/
def lastComp (p : String) : List Char :=
  (p.data.reverse.takeWhile fun ch => ch ≠ '/').reverse

/-- Model of `PurePosixPath.name`: the last component, except that the
paths "." and "/" (and "") have no name. -/
def pathName (p : String) : String :=
  let n := lastComp p
  if n = ['.'] then "" else String.mk n

/-- Model of the `suffix` computation of `pathlib` on a file name: the
segment from the last dot, provided that dot is neither the first nor
the last character of the name. -/
def nameSuffix (n : List Char) : List Char :=
  let afterRev := n.reverse.takeWhile fun ch => ch ≠ '.'
  if afterRev.length = n.length then []
  else if n.length - afterRev.length - 1 = 0 then []
  else if afterRev.length = 0 then []
  else '.' :: afterRev.reverse

/-- Model of `PurePosixPath.suffix`. -/
def pathSuffix (p : String) : String :=
  String.mk (nameSuffix (pathName p).data)

/-- Model of Python `str.lower()` (character-wise ASCII lowering; the
paths and extensions the claims involve are ASCII). -/
def strToLower (s : String) : String :=
  String.mk (s.data.map Char.toLower)

/-! ## The PDF converter, fancy_tools/pdf/converter.py -/

/-- Which conversion `convert_to_pdf` dispatches to; the value records
the file written. -/
inductive PdfKind where
  | txt
  | md
deriving DecidableEq

inductive PdfError where
  | fileNotFound
  | unsupportedExtension
deriving DecidableEq

/-- Translated from `convert_to_pdf`, converter.py lines 20-50.  The
input file is modelled by its existence flag and its path; a returned
`(outputPath, kind)` is the single write the function performs, so an
error value carries no write.  `input_file.suffix.lower()` is
`strToLower (pathSuffix inputPath)`. -/
def convert_to_pdf (present : Bool) (inputPath outputPath : String) :
    Except PdfError (String × PdfKind) :=
  if present = false then .error .fileNotFound
  else
    let ext := strToLower (pathSuffix inputPath)
    if ext = ".txt" then .ok (outputPath, .txt)
    else if ext = ".md" then .ok (outputPath, .md)
    else .error .unsupportedExtension

/-- C8: `convert_to_pdf` fails with the file-not-found error whenever
the input does not exist, regardless of its extension (existence is
checked first); when the input exists it fails with the
unsupported-extension error exactly when the lowercased suffix is
neither `.txt` nor `.md`; and on either error no conversion is
performed, so nothing is written. -/
theorem claim_C8 (present : Bool) (inp outp : String) :
    (present = false → convert_to_pdf present inp outp = .error .fileNotFound) ∧
    (present = true →
      (convert_to_pdf present inp outp = .error .unsupportedExtension ↔
        (strToLower (pathSuffix inp) ≠ ".txt" ∧ strToLower (pathSuffix inp) ≠ ".md"))) ∧
    (∀ e, convert_to_pdf present inp outp = .error e →
      ∀ w, ¬ convert_to_pdf present inp outp = .ok w) := by
  refine ⟨?_, ?_, ?_⟩
  · intro h
    simp [convert_to_pdf, h]
  · intro h
    subst h
    by_cases h1 : strToLower (pathSuffix inp) = ".txt"
    · simp [convert_to_pdf, h1]
    · by_cases h2 : strToLower (pathSuffix inp) = ".md"
      · simp [convert_to_pdf, h1, h2]
      · simp [convert_to_pdf, h1, h2]
  · intro e he w hw
    rw [he] at hw
    exact Except.noConfusion hw

/-- Witness for C8: a missing input, and an existing `.xyz` input. -/
theorem claim_C8_witness :
    convert_to_pdf false "doc.txt" "doc.pdf" = .error .fileNotFound ∧
    convert_to_pdf true "doc.xyz" "doc.pdf" = .error .unsupportedExtension :=
  ⟨(claim_C8 false "doc.txt" "doc.pdf").1 rfl,
    ((claim_C8 true "doc.xyz" "doc.pdf").2.1 rfl).2 (by decide)⟩


/-! ## The favicon converter, fancy_tools/web/favicon.py -/
theorem takeWhile_dropWhile_nil (q : Char → Bool) (l : List Char) :
    (l.dropWhile q).takeWhile q = [] := by
  induction l with
  | nil => rfl
  | cons a t ih =>
    by_cases h : q a
    · simpa [List.dropWhile_cons, h] using ih
    · simp [List.dropWhile_cons, h, List.takeWhile_cons]

theorem takeWhile_append_all (q : Char → Bool) (a b : List Char)
    (h : ∀ x ∈ a, q x = true) :
    (a ++ b).takeWhile q = a ++ b.takeWhile q := by
  induction a with
  | nil => simp
  | cons x t ih =>
    simp only [List.cons_append, List.takeWhile_cons, h x (by simp), if_pos]
    rw [ih fun y hy => h y (by simp [hy])]

theorem lastComp_no_slash (p : String) : ∀ ch ∈ lastComp p, ch ≠ '/' := by
  intro ch hch
  have hmem : ch ∈ p.data.reverse.takeWhile fun c => decide (c ≠ '/') := by
    simpa [lastComp] using hch
  simpa using List.mem_takeWhile_imp hmem

theorem pathName_facts {p : String} (h : ¬ pathName p = "") :
    lastComp p ≠ [] ∧ lastComp p ≠ ['.'] ∧ (pathName p).data = lastComp p := by
  have hval : pathName p =
      if lastComp p = ['.'] then "" else String.mk (lastComp p) := rfl
  by_cases hdot : lastComp p = ['.']
  · exact absurd (by rw [hval, if_pos hdot]) h
  · have hmk : pathName p = String.mk (lastComp p) := by rw [hval, if_neg hdot]
    refine ⟨?_, hdot, by rw [hmk]⟩
    intro hnil
    exact h (by rw [hmk, hnil])

def icoChars : List Char := ['.', 'i', 'c', 'o']

theorem nameSuffix_ico (stem : List Char) (hs : stem ≠ []) :
    nameSuffix (stem ++ icoChars) = icoChars := by
  have hlenpos : 1 ≤ stem.length := List.length_pos.2 hs
  have hafter : ((stem ++ icoChars).reverse.takeWhile fun ch => decide (ch ≠ '.')) =
      ['o', 'c', 'i'] := by
    have hrev : (stem ++ icoChars).reverse =
        'o' :: 'c' :: 'i' :: '.' :: stem.reverse := by
      simp [icoChars]
    rw [hrev]
    simp [List.takeWhile_cons]
  have hlen : (stem ++ icoChars).length = stem.length + 4 := by simp [icoChars]
  simp only [nameSuffix, hafter, hlen]
  rw [if_neg (by simp only [List.length_cons, List.length_nil]; omega),
    if_neg (by simp only [List.length_cons, List.length_nil]; omega),
    if_neg (by simp only [List.length_cons, List.length_nil]; omega)]
  rfl

/-- Model of `str(output).endswith(".ico")` (case sensitive). -/
def strEndsWithIco (p : String) : Bool :=
  icoChars.isSuffixOf p.data

/-- Model of `output.with_suffix(".ico")`, favicon.py line 124: raises
`ValueError` (the error case) when the path has an empty name; otherwise
replaces the name's suffix, keeping the leading components. -/
def withSuffixIco (p : String) : Except Unit String :=
  if pathName p = "" then .error ()
  else
    let n := (pathName p).data
    let old := nameSuffix n
    .ok (String.mk (p.data.take (p.data.length - (lastComp p).length) ++
      (n.take (n.length - old.length) ++ icoChars)))

inductive FaviconError where
  | fileNotFound
  | valueError
deriving DecidableEq

/-- Translated from `convert_to_favicon`, favicon.py lines 29-69 (the
PIL import is assumed available; the saved output path is the ok value,
so an error carries no write). -/
def convert_to_favicon (inputExists : Bool) (outputPath : String) :
    Except FaviconError String :=
  if inputExists = false then .error .fileNotFound
  else if ¬ strToLower (pathSuffix outputPath) = ".ico" then .error .valueError
  else .ok outputPath

/-- The observable outcome of one `favicon_convert` invocation. -/
inductive CliOutcome where
  | done (saved : String)
  | abortFileNotFound
  | abortValueError
  | uncaughtValueError
deriving DecidableEq

/-- The try/except block of favicon.py lines 141-148 around the call. -/
def runConvert (inputExists : Bool) (out : String) : CliOutcome :=
  match convert_to_favicon inputExists out with
  | .ok s2 => .done s2
  | .error .fileNotFound => .abortFileNotFound
  | .error .valueError => .abortValueError

/-- Translated from `favicon_convert`, favicon.py lines 92-153 (sizes
option omitted: its parsing is independent of the output path).  A
missing output defaults to `favicon.ico`; an output whose string does
not end in `.ico` gets its suffix replaced via `with_suffix`, whose own
`ValueError` (empty name) escapes the try block uncaught. -/
def favicon_convert (inputExists : Bool) (output : Option String) : CliOutcome :=
  match output with
  | none => runConvert inputExists "favicon.ico"
  | some out =>
    if strEndsWithIco out then runConvert inputExists out
    else
      match withSuffixIco out with
      | .error _ => .uncaughtValueError
      | .ok out2 => runConvert inputExists out2


/-- If the last component is a nonempty stem followed by `.ico`, the
path suffix is `.ico`. -/
theorem pathSuffix_of_lastComp_ico {p : String} {stem : List Char}
    (hstem : stem ≠ []) (hlast : lastComp p = stem ++ icoChars) :
    pathSuffix p = ".ico" := by
  have hdot : lastComp p ≠ ['.'] := by
    rw [hlast]
    intro hc
    have := congrArg List.length hc
    simp [icoChars] at this
  have hval : pathName p =
      if lastComp p = ['.'] then "" else String.mk (lastComp p) := rfl
  have hpn : (pathName p).data = lastComp p := by rw [hval, if_neg hdot]
  have hps : pathSuffix p = String.mk (nameSuffix (pathName p).data) := rfl
  rw [hps, hpn, hlast, nameSuffix_ico _ hstem]
  rfl

/-- If the path string ends in `.ico` but its name is not the bare
`.ico`, the path suffix is `.ico`. -/
theorem pathSuffix_of_endsWithIco {p : String} (he : strEndsWithIco p = true)
    (hname : ¬ pathName p = ".ico") : pathSuffix p = ".ico" := by
  obtain ⟨t, ht⟩ : ∃ t, p.data = t ++ icoChars := by
    have hsfx : icoChars <:+ p.data := by
      simpa [strEndsWithIco, List.isSuffixOf_iff_suffix] using he
    obtain ⟨t, ht2⟩ := hsfx
    exact ⟨t, ht2.symm⟩
  have hlast : lastComp p =
      (t.reverse.takeWhile fun c => decide (c ≠ '/')).reverse ++ icoChars := by
    simp only [lastComp]
    rw [ht]
    rw [show (t ++ icoChars).reverse = ['o', 'c', 'i', '.'] ++ t.reverse by
      simp [icoChars]]
    rw [takeWhile_append_all _ _ _ (by decide)]
    simp [icoChars]
  have hstemne : (t.reverse.takeWhile fun c => decide (c ≠ '/')).reverse ≠ [] := by
    intro hnil
    apply hname
    have hdot : lastComp p ≠ ['.'] := by
      rw [hlast]
      intro hc
      have := congrArg List.length hc
      simp [icoChars] at this
    have hval : pathName p =
        if lastComp p = ['.'] then "" else String.mk (lastComp p) := rfl
    rw [hval, if_neg hdot, hlast, hnil]
    rfl
  exact pathSuffix_of_lastComp_ico hstemne hlast

theorem take_sub_append (a b : List Char) :
    (a ++ b).take ((a ++ b).length - b.length) = a := by
  have h : (a ++ b).length - b.length = a.length := by simp
  rw [h]
  exact List.take_left a b

/-- Replacing the last component of a path by slash-free characters
makes those characters the new last component. -/
theorem lastComp_take_append (p : String) (m : List Char)
    (hm : ∀ x ∈ m, x ≠ '/') :
    lastComp (String.mk
      (p.data.take (p.data.length - (lastComp p).length) ++ m)) = m := by
  have hsplit : p.data =
      (p.data.reverse.dropWhile fun c => decide (c ≠ '/')).reverse ++ lastComp p := by
    have htd := List.takeWhile_append_dropWhile (fun c => decide (c ≠ '/'))
      p.data.reverse
    calc p.data = p.data.reverse.reverse := by rw [List.reverse_reverse]
      _ = ((p.data.reverse.takeWhile fun c => decide (c ≠ '/')) ++
          (p.data.reverse.dropWhile fun c => decide (c ≠ '/'))).reverse := by
        rw [htd]
      _ = _ := by rw [List.reverse_append]; rfl
  obtain ⟨dw, hdw⟩ : ∃ dw,
      (p.data.reverse.dropWhile fun c => decide (c ≠ '/')).reverse = dw := ⟨_, rfl⟩
  obtain ⟨lc, hlc⟩ : ∃ lc, lastComp p = lc := ⟨_, rfl⟩
  rw [hdw, hlc] at hsplit
  have hpre : p.data.take (p.data.length - (lastComp p).length) = dw := by
    rw [hlc, hsplit]
    exact take_sub_append dw lc
  have hq : ∀ x ∈ m.reverse, (fun c => decide (c ≠ '/')) x = true := by
    intro x hx
    simpa using hm x (List.mem_reverse.1 hx)
  have hdwrev : dw.reverse.takeWhile (fun c => decide (c ≠ '/')) = [] := by
    rw [← hdw, List.reverse_reverse]
    exact takeWhile_dropWhile_nil _ _
  rw [hpre]
  simp only [lastComp, List.reverse_append]
  rw [takeWhile_append_all _ _ _ hq, hdwrev]
  simp

/-- A successful `with_suffix(".ico")` produces a path whose pathlib
suffix is `.ico`. -/
theorem withSuffixIco_suffix {p out2 : String}
    (h : withSuffixIco p = .ok out2) : pathSuffix out2 = ".ico" := by
  by_cases hname : pathName p = ""
  · rw [withSuffixIco, if_pos hname] at h
    exact absurd h (by simp)
  · rw [withSuffixIco, if_neg hname] at h
    obtain ⟨hlcne, hlcdot, hpn⟩ := pathName_facts hname
    have hout : out2 = String.mk
        (p.data.take (p.data.length - (lastComp p).length) ++
          ((pathName p).data.take ((pathName p).data.length -
            (nameSuffix (pathName p).data).length) ++ icoChars)) := by
      cases h
      rfl
    have hnne : (pathName p).data ≠ [] := by rw [hpn]; exact hlcne
    have hstemne : (pathName p).data.take ((pathName p).data.length -
        (nameSuffix (pathName p).data).length) ≠ [] := by
      have hcases : nameSuffix (pathName p).data = [] ∨
          (nameSuffix (pathName p).data).length =
            ((pathName p).data.reverse.takeWhile fun ch =>
              decide (ch ≠ '.')).length + 1 ∧
            (pathName p).data.length - ((pathName p).data.reverse.takeWhile
              fun ch => decide (ch ≠ '.')).length - 1 ≠ 0 := by
        rw [nameSuffix]
        by_cases h1 : ((pathName p).data.reverse.takeWhile fun ch =>
            decide (ch ≠ '.')).length = (pathName p).data.length
        · rw [if_pos h1]; exact Or.inl rfl
        · rw [if_neg h1]
          by_cases h2 : (pathName p).data.length -
              ((pathName p).data.reverse.takeWhile fun ch =>
                decide (ch ≠ '.')).length - 1 = 0
          · rw [if_pos h2]; exact Or.inl rfl
          · rw [if_neg h2]
            by_cases h3 : ((pathName p).data.reverse.takeWhile fun ch =>
                decide (ch ≠ '.')).length = 0
            · rw [if_pos h3]; exact Or.inl rfl
            · rw [if_neg h3]
              exact Or.inr ⟨by simp, h2⟩
      rcases hcases with hnil | ⟨hlen, hne0⟩
      · rw [hnil]
        simp only [List.length_nil, Nat.sub_zero, List.take_length]
        exact hnne
      · intro hcontra
        rw [List.take_eq_nil_iff] at hcontra
        rcases hcontra with hk | hcontra
        · rw [hlen] at hk
          omega
        · exact hnne hcontra
    have hmem : ∀ x ∈ (pathName p).data.take ((pathName p).data.length -
        (nameSuffix (pathName p).data).length) ++ icoChars, x ≠ '/' := by
      intro x hx
      rcases List.mem_append.1 hx with hx | hx
      · have hxn : x ∈ (pathName p).data := List.take_subset _ _ hx
        exact lastComp_no_slash p x (by rw [← hpn]; exact hxn)
      · simp only [icoChars, List.mem_cons, List.not_mem_nil, or_false] at hx
        rcases hx with rfl | rfl | rfl | rfl <;> decide
    have hlast2 : lastComp out2 =
        (pathName p).data.take ((pathName p).data.length -
          (nameSuffix (pathName p).data).length) ++ icoChars := by
      rw [hout]
      exact lastComp_take_append p _ hmem
    exact pathSuffix_of_lastComp_ico
      (by simpa using hstemne) hlast2

/-- A path whose suffix is `.ico` never takes the value-error branch. -/
theorem runConvert_ne_valueError {out : String} (ex : Bool)
    (hs : pathSuffix out = ".ico") :
    ¬ runConvert ex out = .abortValueError := by
  have hlower : strToLower (pathSuffix out) = ".ico" := by
    rw [hs]
    decide
  cases ex with
  | false => simp [runConvert, convert_to_favicon]
  | true => simp [runConvert, convert_to_favicon, hlower]

/-- C10 counterexample.  First part: when the input file does not exist,
`convert_to_favicon` raises the file-not-found error even though the
output suffix is not `.ico`, so the value error is not raised whenever
the suffix is wrong.  Second part: the output path `.ico` has the
non-empty file name `.ico`, passes the wrapper's `endswith(".ico")`
check unchanged, and then reaches the `ValueError` branch inside
`convert_to_favicon`, because its pathlib suffix is empty. -/
theorem claim_C10_counterexample :
    (convert_to_favicon false "logo.txt" = .error .fileNotFound ∧
      ¬ convert_to_favicon false "logo.txt" = .error .valueError) ∧
    (¬ pathName ".ico" = "" ∧
      favicon_convert true (some ".ico") = .abortValueError) := by
  refine ⟨⟨rfl, ?_⟩, by decide, by decide⟩
  intro hcontra
  exact FaviconError.noConfusion (Except.error.inj hcontra)

/-- C10 as amended: `convert_to_favicon` raises its value error exactly
when the input exists and the output's lowercased suffix is not `.ico`
(a missing input raises file-not-found first); the wrapper normalizes
the output (missing output defaults to `favicon.ico`; a string not
ending in `.ico` has its suffix replaced); and for every invocation
through `favicon_convert` whose output path has a non-empty file name
other than the bare dot-file name `.ico`, the value-error branch of
`convert_to_favicon` is unreachable. -/
theorem claim_C10 (ex : Bool) (out : String) :
    (ex = true → (convert_to_favicon ex out = .error .valueError ↔
      ¬ strToLower (pathSuffix out) = ".ico")) ∧
    (ex = false → convert_to_favicon ex out = .error .fileNotFound) ∧
    (¬ favicon_convert ex none = .abortValueError) ∧
    (¬ pathName out = "" → ¬ pathName out = ".ico" →
      ¬ favicon_convert ex (some out) = .abortValueError) := by
  refine ⟨?_, ?_, ?_, ?_⟩
  · intro hex
    subst hex
    by_cases hlow : strToLower (pathSuffix out) = ".ico"
    · simp [convert_to_favicon, hlow]
    · simp [convert_to_favicon, hlow]
  · intro hex
    subst hex
    simp [convert_to_favicon]
  · have hfav : pathSuffix "favicon.ico" = ".ico" := by decide
    show ¬ runConvert ex "favicon.ico" = .abortValueError
    exact runConvert_ne_valueError ex hfav
  · intro hne hnico
    show ¬ (if strEndsWithIco out then runConvert ex out
      else match withSuffixIco out with
        | .error _ => .uncaughtValueError
        | .ok out2 => runConvert ex out2) = .abortValueError
    by_cases hico : strEndsWithIco out = true
    · rw [if_pos hico]
      exact runConvert_ne_valueError ex (pathSuffix_of_endsWithIco hico hnico)
    · rw [if_neg (by simpa using hico)]
      have hok : withSuffixIco out = .ok (String.mk
          (out.data.take (out.data.length - (lastComp out).length) ++
            ((pathName out).data.take ((pathName out).data.length -
              (nameSuffix (pathName out).data).length) ++ icoChars))) := by
        rw [withSuffixIco, if_neg hne]
      rw [hok]
      exact runConvert_ne_valueError ex (withSuffixIco_suffix hok)

/-- Witness for C10 as amended: an existing input with output
`logo.png`, which normalizes to `logo.ico`. -/
theorem claim_C10_witness :
    (convert_to_favicon true "logo.png" = .error .valueError ↔
      ¬ strToLower (pathSuffix "logo.png") = ".ico") ∧
    convert_to_favicon false "logo.png" = .error .fileNotFound ∧
    ¬ favicon_convert true (some "logo.png") = .abortValueError :=
  ⟨(claim_C10 true "logo.png").1 rfl,
    (claim_C10 false "logo.png").2.1 rfl,
    (claim_C10 true "logo.png").2.2.2 (by decide) (by decide)⟩

/-! ## The two copies of get_language_identifier -/

/-- Model of `os.path.basename`: the segment after the last slash,
without the pathlib normalizations. -/
def osBasename (p : String) : String :=
  String.mk (p.data.reverse.takeWhile fun ch => ch ≠ '/').reverse

/-- Model of the extension part of `os.path.splitext`: the segment from
the last dot of the basename, unless every character before that dot is
itself a dot. -/
def osSplitextExt (p : String) : String :=
  let base := (p.data.reverse.takeWhile fun ch => ch ≠ '/').reverse
  let afterRev := base.reverse.takeWhile fun ch => ch ≠ '.'
  if afterRev.length = base.length then ""
  else if (base.take (base.length - afterRev.length - 1)).all
      (fun ch => ch = '.') then ""
  else String.mk ('.' :: afterRev.reverse)

/-- Translated from proj-to-file.py lines 11-34. -/
def LANG_MAP_projToFile : List (String × String) :=
  [(".py", "python"), (".js", "javascript"), (".ts", "typescript"),
   (".html", "html"), (".css", "css"), (".scss", "scss"), (".json", "json"),
   (".xml", "xml"), (".yml", "yaml"), (".yaml", "yaml"), (".md", "markdown"),
   (".sh", "bash"), (".java", "java"), (".c", "c"), (".cpp", "cpp"),
   (".go", "go"), (".rs", "rust"), (".php", "php"), (".rb", "ruby"),
   (".sql", "sql"), (".dockerfile", "dockerfile"), ("Dockerfile", "dockerfile")]

/-- Translated from super_pocket/project/to_file.py lines 17-40. -/
def LANG_MAP_toFile : List (String × String) :=
  [(".py", "python"), (".js", "javascript"), (".ts", "typescript"),
   (".html", "html"), (".css", "css"), (".scss", "scss"), (".json", "json"),
   (".xml", "xml"), (".yml", "yaml"), (".yaml", "yaml"), (".md", "markdown"),
   (".sh", "bash"), (".java", "java"), (".c", "c"), (".cpp", "cpp"),
   (".go", "go"), (".rs", "rust"), (".php", "php"), (".rb", "ruby"),
   (".sql", "sql"), (".dockerfile", "dockerfile"), ("Dockerfile", "dockerfile")]

/-- Python dictionary lookup on an association list with distinct keys. -/
def lookupLang (m : List (String × String)) (k : String) : Option String :=
  (m.find? fun e => e.1 == k).map fun e => e.2

/-- Translated from `get_language_identifier`, proj-to-file.py lines
36-47: the basename is looked up first (the `Dockerfile` case), then
the lowercased extension, defaulting to `plaintext`. -/
def get_language_identifier_projToFile (filename : String) : String :=
  match lookupLang LANG_MAP_projToFile (osBasename filename) with
  | some lang => lang
  | none =>
    (lookupLang LANG_MAP_projToFile
      (strToLower (osSplitextExt filename))).getD "plaintext"

/-- Translated from `get_language_identifier`,
super_pocket/project/to_file.py lines 43-70. -/
def get_language_identifier_toFile (filename : String) : String :=
  match lookupLang LANG_MAP_toFile (osBasename filename) with
  | some lang => lang
  | none =>
    (lookupLang LANG_MAP_toFile
      (strToLower (osSplitextExt filename))).getD "plaintext"

/-- C9: the two copies of `get_language_identifier` are extensionally
equal, and both compute the lookup chain of the claim: the basename in
the language map first, otherwise the lowercased extension, otherwise
`plaintext`; in particular both are total and case-insensitive in the
extension. -/
theorem claim_C9 (filename : String) :
    (get_language_identifier_projToFile filename =
      get_language_identifier_toFile filename) ∧
    (LANG_MAP_projToFile = LANG_MAP_toFile) ∧
    (∀ lang, lookupLang LANG_MAP_projToFile (osBasename filename) = some lang →
      get_language_identifier_projToFile filename = lang) ∧
    (lookupLang LANG_MAP_projToFile (osBasename filename) = none →
      ∀ lang, lookupLang LANG_MAP_projToFile
          (strToLower (osSplitextExt filename)) = some lang →
        get_language_identifier_projToFile filename = lang) ∧
    (lookupLang LANG_MAP_projToFile (osBasename filename) = none →
      lookupLang LANG_MAP_projToFile
          (strToLower (osSplitextExt filename)) = none →
      get_language_identifier_projToFile filename = "plaintext") := by
  refine ⟨rfl, rfl, ?_, ?_, ?_⟩
  · intro lang hl
    simp [get_language_identifier_projToFile, hl]
  · intro hb lang hl
    simp [get_language_identifier_projToFile, hb, hl]
  · intro hb hl
    simp [get_language_identifier_projToFile, hb, hl]

/-- Witness for C9: the extensionless `Dockerfile` resolved through the
basename lookup, and an upper-case `.PY` extension resolved through the
lowercased-extension lookup. -/
theorem claim_C9_witness :
    get_language_identifier_projToFile "Dockerfile" = "dockerfile" ∧
    get_language_identifier_projToFile "src/setup.PY" = "python" ∧
    get_language_identifier_projToFile "notes.xyz" = "plaintext" :=
  ⟨(claim_C9 "Dockerfile").2.2.1 "dockerfile" rfl,
    (claim_C9 "src/setup.PY").2.2.2.1 rfl "python" rfl,
    (claim_C9 "notes.xyz").2.2.2.2 rfl rfl⟩
